import Mathlib

/-!
Verification development for the CSV-hierarchy → RDF/XML converter.

The Python source is shallowly embedded:
- a path (Python tuple of segment strings) is `HPath := List String`;
- Python dicts keyed by paths are association lists with insertion order
  and in-place value update, mirroring CPython dict semantics;
- Python sets are lists deduplicated at the point the source converts the
  set to a list;
- `uuid4` is modelled as an abstract supply `idSupply : Nat → String`
  consumed in node order;
- exceptions (`ValueError`, `KeyError`) are modelled by `Option`: `none`
  is an error escaping `generate`;
- the generated document text is modelled as its list of lines (the
  source joins them with a newline as the final step).
-/

/-- A hierarchy path: Python tuple of segment strings. -/
abbrev HPath := List String

/-- Loop body of `HierarchyParser._normalize_path`: `prev` is the last
element already appended to `normalized`; each subsequent element is
appended only when it differs from the previous appended element. -/
def normAux : String → List String → List String
  | prev, [] => [prev]
  | prev, x :: xs => if x = prev then normAux prev xs else prev :: normAux x xs

/-- `HierarchyParser._normalize_path`: collapse adjacent duplicate
segments; the empty path is returned unchanged. -/
def normalizePath : HPath → HPath
  | [] => []
  | x :: xs => normAux x xs


/-! ## Association lists: CPython dict semantics (insertion order, in-place
value update on an existing key). -/

/-- `k in d` for a Python dict `d`. -/
def hasKey {α : Type} (m : List (HPath × α)) (k : HPath) : Bool :=
  m.any (fun e => decide (e.1 = k))

/-- `d.get(k)` / guarded `d[k]` for a Python dict `d`. -/
def getVal? {α : Type} (m : List (HPath × α)) (k : HPath) : Option α :=
  (m.find? (fun e => decide (e.1 = k))).map (fun e => e.2)

/-- `d[k] = v` for a Python dict `d`: update in place when the key exists,
otherwise append a new entry. -/
def setVal {α : Type} (m : List (HPath × α)) (k : HPath) (v : α) : List (HPath × α) :=
  if hasKey m k then m.map (fun e => if e.1 = k then (k, v) else e)
  else m ++ [(k, v)]

/-! ## `HierarchyParser.parse`

The input is the decoded record list `lines`: triples of (path segments,
uid, CCK code). Reading and decoding the CSV (`_read_lines`) is out of
scope; each record's path arrives split on the separator with segments
already whitespace-stripped, and `cleanParts` performs the source's
`if p.strip()` filter dropping empty segments. -/

/-- One record of `lines`: segment list, uid string, CCK-code string. -/
abbrev RawRecord := List String × String × String

/-- `tuple(p.strip() for p in line.split('\\') if p.strip())`: drop the
empty segments (stripping itself is abstracted into the input). -/
def cleanParts (segs : List String) : HPath :=
  segs.filter (fun s => decide (s ≠ ""))

/-- The accumulators of the record-collection loop in `parse`
(`all_paths`, `path_to_uid`, `path_to_cck`). -/
structure Collect where
  allPaths : List HPath
  pathToUid : List (HPath × String)
  pathToCck : List (HPath × String)

/-- Body of the `for line, uid, cck_code in lines` loop of `parse`. -/
def collectStep (acc : Collect) (r : RawRecord) : Collect :=
  let np := normalizePath (cleanParts r.1)
  if np = [] then acc
  else
    { allPaths := acc.allPaths ++ [np]
      pathToUid := if r.2.1 = "" then acc.pathToUid else setVal acc.pathToUid np r.2.1
      pathToCck := if r.2.2 = "" then acc.pathToCck else setVal acc.pathToCck np r.2.2 }

/-- The record-collection loop of `parse`. -/
def collectRecords (rs : List RawRecord) : Collect :=
  rs.foldl collectStep ⟨[], [], []⟩

/-- Step 2 of `parse`: the normalized strict prefixes of `p` (prefix
lengths `range(1, len(path))`) that are not virtual containers. -/
def ancestorCandidates (uid : List (HPath × String)) (p : HPath) : List HPath :=
  (List.range' 1 (p.length - 1)).filterMap (fun i =>
    let a := normalizePath (p.take i)
    if hasKey uid a then none else some a)

/-- `external_children[parent].append(uid)` on a `defaultdict(list)`. -/
def pushChildUid (m : List (HPath × List String)) (k : HPath) (u : String) :
    List (HPath × List String) :=
  if m.any (fun e => decide (e.1 = k)) then
    m.map (fun e => if e.1 = k then (k, e.2 ++ [u]) else e)
  else m ++ [(k, [u])]

/-- First half of step 3 of `parse`: a virtual container of depth > 1
whose normalized parent is not itself virtual is recorded as an external
child of that parent. -/
def buildExternalChildren (uid : List (HPath × String)) : List (HPath × List String) :=
  uid.foldl
    (fun m vu =>
      if 1 < vu.1.length then
        let np := normalizePath vu.1.dropLast
        if hasKey uid np then m else pushChildUid m np vu.2
      else m)
    []

/-- Second half of step 3 of `parse`: every raw path that is an immediate
child of a virtual container `V` (length `len(V)+1`, first `len(V)`
segments equal to `V`) is mapped to `V`'s uid. -/
def buildParentUidMap (uid : List (HPath × String)) (allPaths : List HPath) :
    List (HPath × String) :=
  uid.foldl
    (fun m vu =>
      allPaths.foldl
        (fun m c =>
          if c.length = vu.1.length + 1 ∧ c.take vu.1.length = vu.1 then
            setVal m c vu.2
          else m)
        m)
    []

/-- Strict lexicographic comparison of char lists by code point, as
Python compares `str` values.  Structural so that it evaluates by kernel
reduction (`String.ltb` does not). -/
def charListLtB : List Char → List Char → Bool
  | [], [] => false
  | [], _ :: _ => true
  | _ :: _, [] => false
  | a :: as, b :: bs =>
    if a < b then true else if b < a then false else charListLtB as bs

/-- Python `str` strict comparison. -/
def strLtB (s t : String) : Bool := charListLtB s.data t.data

/-- Python tuple-of-`str` comparison `a <= b`: lexicographic on segments. -/
def pathLeB : HPath → HPath → Bool
  | [], _ => true
  | _ :: _, [] => false
  | a :: as, b :: bs =>
    if strLtB a b then true else if strLtB b a then false else pathLeB as bs

/-- Steps 1, 2 and 4 of `parse`: seed the materialized set with every raw
path, add every normalized non-virtual strict prefix, then discard every
virtual container.  The Python `set` is modelled as the deduplicated
membership list. -/
def materializedList (c : Collect) : List HPath :=
  ((c.allPaths ++ c.allPaths.flatMap (ancestorCandidates c.pathToUid)).filter
    (fun p => !(hasKey c.pathToUid p))).dedup

/-- The four returned maps of `HierarchyParser.parse`, together with the
virtual-container map `path_to_uid` that the source stores on the parser
object (`self.path_to_uid`). -/
structure ParseResult where
  paths : List HPath
  externalChildren : List (HPath × List String)
  cckMap : List (HPath × String)
  parentUidMap : List (HPath × String)
  pathToUid : List (HPath × String)

/-- `HierarchyParser.parse` on the decoded record list.  `sorted` on the
materialized set is Python's stable sort under the lexicographic order on
segment tuples; on a duplicate-free list any sorting algorithm agrees
with it, and it is modelled by `List.insertionSort`. -/
def parse (rs : List RawRecord) : ParseResult :=
  let c := collectRecords rs
  { paths := List.insertionSort (fun a b => pathLeB a b = true) (materializedList c)
    externalChildren := buildExternalChildren c.pathToUid
    cckMap := c.pathToCck
    parentUidMap := buildParentUidMap c.pathToUid c.allPaths
    pathToUid := c.pathToUid }


/-! ## `XMLGenerator.generate`

The generator is modelled with its default configuration (the namespace
table and model metadata hard-coded as the source's defaults).  `uuid4`
is an abstract supply `idSupply : Nat → String`: the node listed at
position `i` of the node list receives `"#_" ++ idSupply i`, matching
`_generate_id`'s `"#_{uuid4()}"` format.  `ValueError` on empty `paths`
and `KeyError` on a missing `id_map` entry are modelled by `none`. -/

/-- The non-empty prefixes `path[:i]`, `1 ≤ i ≤ len(path)`, of one path. -/
def prefixesOf (p : HPath) : List HPath :=
  (List.range' 1 p.length).map (fun i => p.take i)

/-- The `all_nodes` set: every prefix at every depth of every input path
(the Python set is modelled as the deduplicated list). -/
def allNodesList (paths : List HPath) : List HPath :=
  (paths.flatMap prefixesOf).dedup

/-- `children_map` and `parent_map` of `generate`. -/
structure TreeMaps where
  childrenMap : List (HPath × List HPath)
  parentMap : List (HPath × HPath)

/-- `children_map[n]` with the `defaultdict(list)` default. -/
def childrenOf (cm : List (HPath × List HPath)) (n : HPath) : List HPath :=
  ((cm.find? (fun e => decide (e.1 = n))).map (fun e => e.2)).getD []

/-- The tree-building loop of `generate`: for each path and each depth
`i` in `range(1, len(path))`, link `path[:i] → path[:i+1]`, appending a
child only once and recording the child's parent. -/
def buildTree (paths : List HPath) (allN : List HPath) : TreeMaps :=
  paths.foldl
    (fun t p =>
      (List.range' 1 (p.length - 1)).foldl
        (fun t i =>
          let par := p.take i
          let c := p.take (i + 1)
          if par ∈ allN ∧ c ∈ allN then
            { childrenMap :=
                if c ∈ childrenOf t.childrenMap par then t.childrenMap
                else setVal t.childrenMap par (childrenOf t.childrenMap par ++ [c])
              parentMap := setVal t.parentMap c par }
          else t)
        t)
    ⟨[], []⟩

/-- `id_map = {node: self._generate_id(node) for node in all_nodes}`. -/
def buildIdMap (allN : List HPath) (idSupply : Nat → String) : List (HPath × String) :=
  allN.enum.map (fun e => (e.2, "#_" ++ idSupply e.1))

/-- The `parent_resource` resolution of `generate`: depth-1 nodes use
`parent_uid`; otherwise `parent_uid_map` wins, then the structural parent
when it has a generated id, then `parent_uid`. -/
def parentResource (parentUid : String) (pum : List (HPath × String))
    (pm : List (HPath × HPath)) (im : List (HPath × String)) (current : HPath) :
    String :=
  if current.length = 1 then parentUid
  else
    match getVal? pum current with
    | some u => "#_" ++ u
    | none =>
      match getVal? pm current with
      | some par =>
        match getVal? im par with
        | some i => i
        | none => parentUid
      | none => parentUid

/-- The element-type selection of `generate`: depth 1 or non-leaf nodes
are `cim:AssetContainer`, leaves of depth > 1 are `me:GenericPSR`. -/
def elementType (cm : List (HPath × List HPath)) (current : HPath) : String :=
  if current.length = 1 then "cim:AssetContainer"
  else if childrenOf cm current = [] then "me:GenericPSR"
  else "cim:AssetContainer"

/-- One `ChildObjects` reference line. -/
def childRefLine (cid : String) : String :=
  "    <me:IdentifiedObject.ChildObjects rdf:resource=\"#_" ++ cid ++ "\" />"

/-- The `ChildObjects` loop of `generate`: for each child with a
generated id whose id is not in `added_children`, emit one reference
line, record the id, and enqueue the child.  Returns the emitted lines
and the enqueued children. -/
def childBuild (im : List (HPath × String)) :
    List HPath → List String → List String × List HPath
  | [], _ => ([], [])
  | c :: cs, added =>
    match getVal? im c with
    | none => childBuild im cs added
    | some cid =>
      if cid ∈ added then childBuild im cs added
      else
        let r := childBuild im cs (added ++ [cid])
        (childRefLine cid :: r.1, c :: r.2)

/-- The lines of one emitted element plus the children enqueued while
emitting it (`currentId` is the already looked-up `id_map[current]`). -/
def nodeBlock (cckMap : List (HPath × String)) (parentUid : String)
    (pum : List (HPath × String)) (tm : TreeMaps) (im : List (HPath × String))
    (current : HPath) (currentId : String) : List String × List HPath :=
  let et := elementType tm.childrenMap current
  let pr := parentResource parentUid pum tm.parentMap im current
  let openLine := "  <" ++ et ++ " rdf:about=\"" ++ currentId ++ "\">"
  let nameLine := "    <cim:IdentifiedObject.name>" ++ current.getLastD "" ++
    "</cim:IdentifiedObject.name>"
  let parentLine := "    <me:IdentifiedObject.ParentObject rdf:resource=\"#_" ++
    pr ++ "\" />"
  let assetLine :=
    if et = "cim:AssetContainer" then
      "    <cim:Asset.AssetContainer rdf:resource=\"#_" ++ pr ++ "\" />"
    else
      "    <cim:PowerSystemResource.Assets rdf:resource=\"#_" ++ pr ++ "\" />"
  let cckLines :=
    match getVal? cckMap current with
    | some k =>
      if k = "" then []
      else if et = "cim:AssetContainer" then
        ["    <me:IdentifiedObject.mRIDStr>" ++ k ++ "</me:IdentifiedObject.mRIDStr>"]
      else
        ["    <rh:PowerSystemResource.ccsCode>" ++ k ++ "</rh:PowerSystemResource.ccsCode>"]
    | none => []
  let childPart :=
    if et = "cim:AssetContainer" then
      childBuild im (childrenOf tm.childrenMap current) []
    else ([], [])
  ([openLine, nameLine, parentLine, assetLine] ++ cckLines ++ childPart.1 ++
      ["  </" ++ et ++ ">"],
    childPart.2)

/-- The breadth-first emission loop of `generate`: a FIFO queue seeded
with all of `paths`, a processed set, children enqueued as their parent
is emitted.  `none` models the `KeyError` of `id_map[current]`; the fuel
passed by `generate` is large enough that it is never exhausted. -/
def emitLoop (cckMap : List (HPath × String)) (parentUid : String)
    (pum : List (HPath × String)) (tm : TreeMaps) (im : List (HPath × String)) :
    Nat → List HPath → List HPath → Option (List String)
  | 0, q, _ => if q = [] then some [] else none
  | _ + 1, [], _ => some []
  | fuel + 1, current :: rest, processed =>
    if current ∈ processed then
      emitLoop cckMap parentUid pum tm im fuel rest processed
    else
      match getVal? im current with
      | none => none
      | some cid =>
        let blk := nodeBlock cckMap parentUid pum tm im current cid
        match emitLoop cckMap parentUid pum tm im fuel (rest ++ blk.2)
            (processed ++ [current]) with
        | none => none
        | some out => some (blk.1 ++ out)

/-- The source's default namespace table. -/
def defaultNamespaces : List (String × String) :=
  [("rdf", "http://www.w3.org/1999/02/22-rdf-syntax-ns#"),
   ("md", "http://iec.ch/TC57/61970-552/ModelDescription/1#"),
   ("cim", "http://iec.ch/TC57/2014/CIM-schema-cim16#"),
   ("cim17", "http://iec.ch/TC57/CIM100#"),
   ("me", "http://monitel.com/2014/schema-cim16#"),
   ("rf", "http://gost.ru/2019/schema-cim01#"),
   ("rh", "http://rushydro.ru/2015/schema-cim16#"),
   ("so", "http://so-ups.ru/2015/schema-cim16#")]

/-- The `<rdf:RDF ...>` opening tag with one `xmlns` per namespace. -/
def rdfOpenLine : String :=
  "<rdf:RDF" ++
    String.join (defaultNamespaces.map
      (fun e => " xmlns:" ++ e.1 ++ "=\"" ++ e.2 ++ "\"")) ++ ">"

/-- Document header: processing instructions, `rdf:RDF` opening tag and
the `FullModel` metadata block with the default model values. -/
def headerLines : List String :=
  ["<?xml version=\"1.0\" encoding=\"utf-8\"?>",
   "<?iec61970-552 version=\"2.0\"?>",
   "<?floatExporter 1?>",
   rdfOpenLine,
   "  <md:FullModel rdf:about=\"#_00000000-0000-0000-0000-000000000000\">",
   "    <md:Model.created>2025-01-01T00:00:00.0000000Z</md:Model.created>",
   "    <md:Model.version>ver:1.0.0</md:Model.version>",
   "    <me:Model.name>CIM16</me:Model.name>",
   "  </md:FullModel>"]

/-- A fuel value no smaller than the total number of queue pops the
emission loop can perform: every element ever enqueued is one of the
seeds or a child enqueued when its parent is processed, and each node is
processed at most once. -/
def fuelFor (paths : List HPath) (tm : TreeMaps) (allN : List HPath) : Nat :=
  paths.length + (allN.map (fun n => (childrenOf tm.childrenMap n).length)).sum

/-- Specification-side measure for the emission loop: the total number of
structural children of the not-yet-processed keys. -/
def unprocessedSum (cm : List (HPath × List HPath)) (keys processed : List HPath) : Nat :=
  ((keys.filter (fun n => decide (n ∉ processed))).map
    (fun n => (childrenOf cm n).length)).sum

/-- `XMLGenerator.generate`.  The parameters `externalChildren` and
`virtualContainers` mirror the source's signature; neither is read by
the body (as in the source).  Returns the document's lines and the full
path → generated-id map, or `none` on error. -/
def generate (paths : List HPath) (externalChildren : List (HPath × List String))
    (parentUid : String) (cckMap : List (HPath × String))
    (parentUidMap : List (HPath × String)) (virtualContainers : List HPath)
    (idSupply : Nat → String) :
    Option (List String × List (HPath × String)) :=
  if paths = [] then none
  else
    let allN := allNodesList paths
    let tm := buildTree paths allN
    let im := buildIdMap allN idSupply
    match emitLoop cckMap parentUid parentUidMap tm im (fuelFor paths tm allN)
        paths [] with
    | none => none
    | some body => some (headerLines ++ body ++ ["</rdf:RDF>"], im)


/-- The spec scenario input: paths A, A\B (uid 123-456), A\B\C, A\B\C\D. -/
def rsScenario : List RawRecord :=
  [(["A", ""], "", ""), (["A", "B"], "123-456", ""), (["A", "B", "C"], "", ""),
   (["A", "B", "C", "D"], "", "")]


theorem normAux_head : ∀ (prev : String) (xs : List String),
    ∃ t, normAux prev xs = prev :: t := by
  intro prev xs
  induction xs generalizing prev with
  | nil => exact ⟨[], rfl⟩
  | cons x xs ih =>
    by_cases h : x = prev
    · simpa [normAux, h] using ih prev
    · exact ⟨normAux x xs, by simp [normAux, h]⟩

theorem normAux_chain' : ∀ (prev : String) (xs : List String),
    List.Chain' (· ≠ ·) (normAux prev xs) := by
  intro prev xs
  induction xs generalizing prev with
  | nil => simp [normAux]
  | cons x xs ih =>
    by_cases h : x = prev
    · simpa [normAux, h] using ih prev
    · obtain ⟨t, ht⟩ := normAux_head x xs
      have hx := ih x
      rw [ht] at hx
      simp only [normAux, h, if_neg]
      rw [ht]
      exact List.Chain'.cons (fun hc => h hc.symm) hx

theorem normAux_of_chain' : ∀ (prev : String) (xs : List String),
    List.Chain' (· ≠ ·) (prev :: xs) → normAux prev xs = prev :: xs := by
  intro prev xs
  induction xs generalizing prev with
  | nil => intro _; rfl
  | cons x xs ih =>
    intro h
    rcases List.chain'_cons.mp h with ⟨hne, htail⟩
    have hx : x ≠ prev := fun hc => hne hc.symm
    simp only [normAux]
    rw [if_neg hx, ih x htail]

/-- The output of `_normalize_path` has no two adjacent equal segments. -/
theorem normalizePath_chain' (p : HPath) : List.Chain' (· ≠ ·) (normalizePath p) := by
  cases p with
  | nil => simp [normalizePath]
  | cons x xs => exact normAux_chain' x xs

/-- `_normalize_path` is the identity on paths with no two adjacent equal
segments. -/
theorem normalizePath_of_chain' (p : HPath) (h : List.Chain' (· ≠ ·) p) :
    normalizePath p = p := by
  cases p with
  | nil => rfl
  | cons x xs => exact normAux_of_chain' x xs h

theorem normalizePath_idem (p : HPath) :
    normalizePath (normalizePath p) = normalizePath p :=
  normalizePath_of_chain' _ (normalizePath_chain' p)

theorem normalizePath_ne_nil (p : HPath) (h : p ≠ []) : normalizePath p ≠ [] := by
  cases p with
  | nil => exact absurd rfl h
  | cons x xs =>
    obtain ⟨t, ht⟩ := normAux_head x xs
    simp [normalizePath, ht]

/-- C9: `_normalize_path` is idempotent, and is the identity on every
path that already contains no two consecutive identical segments. -/
theorem C9_normalize_idempotent (p : HPath) :
    normalizePath (normalizePath p) = normalizePath p ∧
      (List.Chain' (· ≠ ·) p → normalizePath p = p) :=
  ⟨normalizePath_idem p, normalizePath_of_chain' p⟩


/-! ## Support lemmas about the parser embedding. -/

theorem hasKey_setVal_self {α : Type} (m : List (HPath × α)) (k : HPath) (v : α) :
    hasKey (setVal m k v) k = true := by
  unfold setVal
  by_cases h : hasKey m k
  · rw [if_pos h]
    unfold hasKey at h ⊢
    simp only [List.any_eq_true, decide_eq_true_eq] at h ⊢
    obtain ⟨e, he, hek⟩ := h
    exact ⟨(k, v), List.mem_map.mpr ⟨e, he, by rw [if_pos hek]⟩, rfl⟩
  · rw [if_neg h]
    unfold hasKey
    simp

theorem hasKey_setVal_mono {α : Type} (m : List (HPath × α)) (k p : HPath) (v : α)
    (h : hasKey m p = true) : hasKey (setVal m k v) p = true := by
  by_cases hk : p = k
  · subst hk; exact hasKey_setVal_self m p v
  · unfold hasKey at h
    simp only [List.any_eq_true, decide_eq_true_eq] at h
    obtain ⟨e, he, hep⟩ := h
    unfold setVal
    by_cases hm : hasKey m k
    · rw [if_pos hm]
      unfold hasKey
      simp only [List.any_eq_true, decide_eq_true_eq]
      refine ⟨if e.1 = k then (k, v) else e, List.mem_map_of_mem _ he, ?_⟩
      rw [if_neg (by rw [hep]; exact hk)]
      exact hep
    · rw [if_neg hm]
      unfold hasKey
      simp only [List.any_append, List.any_eq_true, decide_eq_true_eq, Bool.or_eq_true]
      exact Or.inl ⟨e, he, hep⟩

theorem collectStep_pathToUid_mono (acc : Collect) (r : RawRecord) (p : HPath)
    (h : hasKey acc.pathToUid p = true) :
    hasKey (collectStep acc r).pathToUid p = true := by
  unfold collectStep
  by_cases h0 : normalizePath (cleanParts r.1) = []
  · simpa [h0] using h
  · simp only [h0, if_false]
    by_cases hu : r.2.1 = ""
    · simpa [hu] using h
    · simpa [hu] using hasKey_setVal_mono _ _ _ _ h

theorem collect_hasKey : ∀ (rs : List RawRecord) (acc : Collect) (p : HPath),
    (hasKey acc.pathToUid p = true ∨
      ∃ r ∈ rs, r.2.1 ≠ "" ∧ normalizePath (cleanParts r.1) = p ∧ p ≠ []) →
    hasKey (rs.foldl collectStep acc).pathToUid p = true := by
  intro rs
  induction rs with
  | nil =>
    intro acc p h
    simpa using h.resolve_right (by simp)
  | cons r rs ih =>
    intro acc p h
    rw [List.foldl_cons]
    apply ih
    rcases h with h | ⟨r', hr', hu, hnp, hne⟩
    · exact Or.inl (collectStep_pathToUid_mono acc r p h)
    · rcases List.mem_cons.mp hr' with rfl | hmem
      · refine Or.inl ?_
        unfold collectStep
        rw [hnp]
        simp only [hne, if_false]
        by_cases hu0 : r'.2.1 = ""
        · exact absurd hu0 hu
        · simpa [hu0] using hasKey_setVal_self acc.pathToUid p r'.2.1
      · exact Or.inr ⟨r', hmem, hu, hnp, hne⟩

theorem collect_allPaths_spec : ∀ (rs : List RawRecord) (acc : Collect),
    (∀ p ∈ acc.allPaths, List.Chain' (· ≠ ·) p ∧ p ≠ []) →
    ∀ p ∈ (rs.foldl collectStep acc).allPaths, List.Chain' (· ≠ ·) p ∧ p ≠ [] := by
  intro rs
  induction rs with
  | nil => intro acc h; simpa using h
  | cons r rs ih =>
    intro acc h
    rw [List.foldl_cons]
    apply ih
    intro p hp
    unfold collectStep at hp
    by_cases h0 : normalizePath (cleanParts r.1) = []
    · exact h p (by simpa [h0] using hp)
    · simp only [h0, if_false, List.mem_append, List.mem_singleton] at hp
      rcases hp with hp | rfl
      · exact h p hp
      · exact ⟨normalizePath_chain' _, h0⟩

/-- Every raw path accumulated by the collection loop is normalized
(no adjacent duplicate segments) and non-empty. -/
theorem collect_allPaths_chain' (rs : List RawRecord) :
    ∀ p ∈ (collectRecords rs).allPaths, List.Chain' (· ≠ ·) p ∧ p ≠ [] :=
  collect_allPaths_spec rs ⟨[], [], []⟩ (by simp)

theorem mem_ancestorCandidates (uid : List (HPath × String)) (p x : HPath) :
    x ∈ ancestorCandidates uid p ↔
      ∃ i, 1 ≤ i ∧ i < 1 + (p.length - 1) ∧
        hasKey uid (normalizePath (p.take i)) = false ∧
        x = normalizePath (p.take i) := by
  simp only [ancestorCandidates, List.mem_filterMap, List.mem_range'_1]
  constructor
  · rintro ⟨i, ⟨h1, h2⟩, hf⟩
    by_cases hk : hasKey uid (normalizePath (p.take i))
    · simp [hk] at hf
    · simp only [hk, Bool.false_eq_true, if_false, Option.some.injEq] at hf
      exact ⟨i, h1, h2, by simpa using hk, hf.symm⟩
  · rintro ⟨i, h1, h2, hk, hx⟩
    refine ⟨i, ⟨h1, h2⟩, ?_⟩
    simp [hk, hx]

theorem mem_materializedList (c : Collect) (x : HPath) :
    x ∈ materializedList c ↔
      ((x ∈ c.allPaths ∨
          ∃ q ∈ c.allPaths, x ∈ ancestorCandidates c.pathToUid q) ∧
        hasKey c.pathToUid x = false) := by
  simp only [materializedList, List.mem_dedup, List.mem_filter, List.mem_append,
    List.mem_flatMap, Bool.not_eq_eq_eq_not, Bool.not_true]

theorem mem_parse_paths (rs : List RawRecord) (x : HPath) :
    x ∈ (parse rs).paths ↔ x ∈ materializedList (collectRecords rs) := by
  simp [parse, List.mem_insertionSort]

theorem parse_pathToUid (rs : List RawRecord) :
    (parse rs).pathToUid = (collectRecords rs).pathToUid := rfl

/-- Members of the materialized output are non-empty paths with no two
adjacent equal segments, and are prefixes of raw paths. -/
theorem mem_parse_paths_shape (rs : List RawRecord) (x : HPath)
    (hx : x ∈ (parse rs).paths) :
    ∃ q ∈ (collectRecords rs).allPaths, ∃ j, 1 ≤ j ∧ j ≤ q.length ∧ x = q.take j := by
  rcases (mem_materializedList _ _).mp ((mem_parse_paths rs x).mp hx) with ⟨hsrc, -⟩
  rcases hsrc with hraw | ⟨q, hq, hanc⟩
  · have hs := collect_allPaths_chain' rs x hraw
    refine ⟨x, hraw, x.length, ?_, le_refl _, by simp⟩
    have : x ≠ [] := hs.2
    cases x with
    | nil => exact absurd rfl this
    | cons a l => simp
  · have hqs := collect_allPaths_chain' rs q hq
    rcases (mem_ancestorCandidates _ _ _).mp hanc with ⟨i, h1, h2, -, hx'⟩
    have hqlen : 1 ≤ q.length := by
      cases q with
      | nil => exact absurd rfl hqs.2
      | cons a l => simp
    have hi : i ≤ q.length := by omega
    have hchain : List.Chain' (· ≠ ·) (q.take i) := List.Chain'.take hqs.1 i
    refine ⟨q, hq, i, h1, hi, ?_⟩
    rw [hx', normalizePath_of_chain' _ hchain]

/-- C2: for every path `P` in the materialized output and every strict
non-empty prefix length `i`, if the normalized prefix is not a key of the
virtual-container map then it is also in the materialized output. -/
theorem C2_ancestor_completeness (rs : List RawRecord) (P : HPath) (i : Nat)
    (hP : P ∈ (parse rs).paths) (h1 : 1 ≤ i) (h2 : i < P.length)
    (hv : hasKey (parse rs).pathToUid (normalizePath (P.take i)) = false) :
    normalizePath (P.take i) ∈ (parse rs).paths := by
  rw [parse_pathToUid] at hv
  obtain ⟨q, hq, j, hj1, hj2, rfl⟩ := mem_parse_paths_shape rs P hP
  have hqs := collect_allPaths_chain' rs q hq
  have hlen : (q.take j).length = j := by
    rw [List.length_take]
    omega
  have hij : i < j := by omega
  have htt : (q.take j).take i = q.take i := by
    rw [List.take_take]
    congr 1
    omega
  rw [htt] at hv ⊢
  have hqlen : 1 ≤ q.length := by
    cases q with
    | nil => exact absurd rfl hqs.2
    | cons a l => simp
  rw [mem_parse_paths, mem_materializedList]
  refine ⟨Or.inr ⟨q, hq, ?_⟩, hv⟩
  rw [mem_ancestorCandidates]
  exact ⟨i, h1, by omega, hv, rfl⟩


theorem C2_ancestor_completeness_witness :
    normalizePath ((["A", "B", "C", "D"] : HPath).take 3) ∈ (parse rsScenario).paths :=
  C2_ancestor_completeness rsScenario ["A", "B", "C", "D"] 3
    (by decide) (by decide) (by decide) (by decide)

/-- C3: a path for which some record carried a non-empty external id never
appears in the materialized output, even if other records name the same
path with an empty id. -/
theorem C3_virtual_exclusion (rs : List RawRecord) (p : HPath)
    (h : ∃ r ∈ rs, r.2.1 ≠ "" ∧ normalizePath (cleanParts r.1) = p) :
    p ∉ (parse rs).paths := by
  intro hmem
  rcases (mem_materializedList _ _).mp ((mem_parse_paths rs p).mp hmem) with ⟨-, hkey⟩
  by_cases hp : p = []
  · obtain ⟨q, hq, j, hj1, hj2, hpq⟩ := mem_parse_paths_shape rs p hmem
    have hqs := collect_allPaths_chain' rs q hq
    have : p ≠ [] := by
      rw [hpq]
      have : q ≠ [] := hqs.2
      cases q with
      | nil => exact absurd rfl this
      | cons a l =>
        cases j with
        | zero => omega
        | succ n => simp
    exact this hp
  · obtain ⟨r, hr, hu, hnp⟩ := h
    have : hasKey (collectRecords rs).pathToUid p = true :=
      collect_hasKey rs ⟨[], [], []⟩ p (Or.inr ⟨r, hr, hu, hnp, hp⟩)
    rw [this] at hkey
    exact Bool.true_eq_false.mp hkey

/-- Witness for C3: the same path named once with an external id and once
without — the virtual designation wins. -/
theorem C3_virtual_exclusion_witness :
    (["X", "Y"] : HPath) ∉ (parse [(["X", "Y"], "u1", ""), (["X", "Y"], "", "")]).paths :=
  C3_virtual_exclusion _ ["X", "Y"]
    ⟨(["X", "Y"], "u1", ""), by simp, by decide, by decide⟩
/-! ## The comparison used by `sorted` agrees with lexicographic order. -/

theorem charListLtB_iff : ∀ as bs : List Char,
    charListLtB as bs = true ↔ List.Lex (· < ·) as bs := by
  intro as
  induction as with
  | nil =>
    intro bs
    cases bs with
    | nil =>
      constructor
      · intro h; exact absurd h (by simp [charListLtB])
      · intro h; exact absurd h (List.Lex.not_nil_right _ _)
    | cons b bs => exact ⟨fun _ => List.Lex.nil, fun _ => rfl⟩
  | cons a as ih =>
    intro bs
    cases bs with
    | nil =>
      constructor
      · intro h; exact absurd h (by simp [charListLtB])
      · intro h; exact absurd h (List.Lex.not_nil_right _ _)
    | cons b bs =>
      by_cases hab : a < b
      · simp only [charListLtB, if_pos hab]
        exact ⟨fun _ => List.Lex.rel hab, fun _ => trivial⟩
      · by_cases hba : b < a
        · simp only [charListLtB, if_neg hab, if_pos hba]
          constructor
          · intro h; cases h
          · intro h
            cases h with
            | rel h' => exact absurd h' hab
            | cons h' => exact absurd hba (lt_irrefl _)
        · have hab' : a = b := le_antisymm (not_lt.mp hba) (not_lt.mp hab)
          subst hab'
          simp only [charListLtB, if_neg hab, if_neg hba]
          rw [ih bs]
          exact List.Lex.cons_iff.symm

theorem strLtB_iff (s t : String) : strLtB s t = true ↔ s < t := by
  rw [String.lt_iff_toList_lt]
  exact charListLtB_iff s.data t.data

theorem pathLeB_iff : ∀ a b : HPath,
    pathLeB a b = true ↔ (List.Lex (· < ·) a b ∨ a = b) := by
  intro a
  induction a with
  | nil =>
    intro b
    cases b with
    | nil => exact ⟨fun _ => Or.inr rfl, fun _ => rfl⟩
    | cons x xs => exact ⟨fun _ => Or.inl List.Lex.nil, fun _ => rfl⟩
  | cons a as ih =>
    intro b
    cases b with
    | nil =>
      constructor
      · intro h; exact absurd h (by simp [pathLeB])
      · rintro (h | h)
        · exact absurd h (List.Lex.not_nil_right _ _)
        · exact absurd h (by simp)
    | cons b bs =>
      by_cases hab : strLtB a b = true
      · have hlt : a < b := (strLtB_iff a b).mp hab
        simp only [pathLeB, hab, if_pos]
        exact ⟨fun _ => Or.inl (List.Lex.rel hlt), fun _ => trivial⟩
      · by_cases hba : strLtB b a = true
        · have hlt : b < a := (strLtB_iff b a).mp hba
          simp only [pathLeB, hab, hba, Bool.false_eq_true, if_false, if_true]
          constructor
          · intro h; cases h
          · rintro (h | heq)
            · cases h with
              | rel h' => exact absurd h' (asymm hlt)
              | cons h' => exact absurd hlt (lt_irrefl _)
            · injection heq with h1 h2
              subst h1
              exact absurd hlt (lt_irrefl _)
        · have hab' : a = b := by
            have h1 : ¬a < b := fun h => hab ((strLtB_iff a b).mpr h)
            have h2 : ¬b < a := fun h => hba ((strLtB_iff b a).mpr h)
            exact le_antisymm (not_lt.mp h2) (not_lt.mp h1)
          subst hab'
          simp only [pathLeB, hab, hba, Bool.false_eq_true, if_false]
          rw [ih bs]
          constructor
          · rintro (h | rfl)
            · exact Or.inl (List.Lex.cons h)
            · exact Or.inr rfl
          · rintro (h | heq)
            · exact Or.inl (List.Lex.cons_iff.mp h)
            · injection heq with h1 h2
              exact Or.inr h2

theorem pathLeB_total (a b : HPath) : pathLeB a b = true ∨ pathLeB b a = true := by
  haveI : IsTrichotomous (List String) (List.Lex (· < ·)) := List.Lex.isTrichotomous _
  rcases trichotomous_of (List.Lex (· < ·)) a b with h | h | h
  · exact Or.inl ((pathLeB_iff a b).mpr (Or.inl h))
  · exact Or.inl ((pathLeB_iff a b).mpr (Or.inr h))
  · exact Or.inr ((pathLeB_iff b a).mpr (Or.inl h))

theorem pathLeB_trans (a b c : HPath) (h1 : pathLeB a b = true)
    (h2 : pathLeB b c = true) : pathLeB a c = true := by
  rcases (pathLeB_iff a b).mp h1 with h | rfl
  · rcases (pathLeB_iff b c).mp h2 with h' | rfl
    · haveI : IsTrans (List String) (List.Lex (· < ·)) := inferInstance
      exact (pathLeB_iff a c).mpr (Or.inl (IsTrans.trans a b c h h'))
    · exact h1
  · exact h2

theorem parse_paths_def (rs : List RawRecord) :
    (parse rs).paths =
      List.insertionSort (fun a b => pathLeB a b = true)
        (materializedList (collectRecords rs)) := rfl

/-- C8: the materialized-path sequence returned by `parse` is strictly
increasing in the lexicographic order on segment tuples. -/
theorem C8_paths_sorted (rs : List RawRecord) :
    ((parse rs).paths).Pairwise (fun a b => List.Lex (· < ·) a b) := by
  have hnd : ((parse rs).paths).Nodup := by
    rw [parse_paths_def]
    exact ((List.perm_insertionSort _ _).nodup_iff).mpr (List.nodup_dedup _)
  have hsorted : List.Sorted (fun a b => pathLeB a b = true) (parse rs).paths := by
    rw [parse_paths_def]
    haveI : IsTotal HPath (fun a b => pathLeB a b = true) := ⟨pathLeB_total⟩
    haveI : IsTrans HPath (fun a b => pathLeB a b = true) := ⟨pathLeB_trans⟩
    exact List.sorted_insertionSort _ _
  exact hsorted.imp₂ (fun a b hle hne => ((pathLeB_iff a b).mp hle).resolve_right hne) hnd

/-- Witness for C9 at the spec's example path `("A","B","C")`. -/
theorem C9_normalize_idempotent_witness :
    normalizePath (normalizePath ["A", "B", "C"]) = normalizePath ["A", "B", "C"] ∧
      normalizePath ["A", "B", "C"] = ["A", "B", "C"] :=
  ⟨(C9_normalize_idempotent ["A", "B", "C"]).1,
    (C9_normalize_idempotent ["A", "B", "C"]).2
      (List.chain'_cons.mpr ⟨by decide, List.chain'_cons.mpr
        ⟨by decide, List.chain'_singleton _⟩⟩)⟩

/-! ## Parent-reference resolution claims. -/

/-- C10: every emitted node of depth 1 resolves its parent reference to
`parent_uid` unconditionally — `virtual_parent_map` and the structural
`parent_map` are never consulted at depth 1 — and is classified
`cim:AssetContainer`, so its `Asset.AssetContainer` back-reference uses
the same `parent_uid`-derived value. -/
theorem C10_depth1_ignores_virtual_map (parentUid : String)
    (pum : List (HPath × String)) (pm : List (HPath × HPath))
    (im : List (HPath × String)) (cm : List (HPath × List HPath)) (p : HPath)
    (h : p.length = 1) :
    parentResource parentUid pum pm im p = parentUid ∧
      elementType cm p = "cim:AssetContainer" := by
  unfold parentResource elementType
  rw [if_pos h, if_pos h]
  exact ⟨rfl, rfl⟩

/-- Witness for C10: a depth-1 node that is itself a key of
`virtual_parent_map` still resolves to `parent_uid`. -/
theorem C10_depth1_ignores_virtual_map_witness :
    parentResource "ROOT" [(["X"], "999")] [] [] ["X"] = "ROOT" ∧
      elementType [] ["X"] = "cim:AssetContainer" :=
  C10_depth1_ignores_virtual_map "ROOT" [(["X"], "999")] [] [] [] ["X"] rfl

/-- C1 counterexample: a call to `generate` with a depth-1 node present
in `virtual_parent_map`.  The node's emitted parent reference is derived
from `parent_uid` (`ROOT`), not from the map's value `999`: the document
contains the `#_ROOT` parent line and no reference to `999` at all. -/
theorem C1_counterexample :
    parentResource "ROOT" [(["X"], "999")] [] [] ["X"] = "ROOT" ∧
      ("ROOT" : String) ≠ "999" ∧ ("ROOT" : String) ≠ "#_999" ∧
      ("    <me:IdentifiedObject.ParentObject rdf:resource=\"#_ROOT\" />" ∈
        ((generate [["X"]] [] "ROOT" [] [(["X"], "999")] []
            (fun i => String.mk (List.replicate i 'x'))).getD ([], [])).1) ∧
      ("    <me:IdentifiedObject.ParentObject rdf:resource=\"#_#_999\" />" ∉
        ((generate [["X"]] [] "ROOT" [] [(["X"], "999")] []
            (fun i => String.mk (List.replicate i 'x'))).getD ([], [])).1) := by
  refine ⟨rfl, by decide, by decide, by decide, by decide⟩

/-- C1 (amended): for every `generate` call and every node of depth ≥ 2
present in `virtual_parent_map`, the resolved parent resource is derived
solely from that map's external id (the id under the reference-prefix
convention applied to every parent reference), independent of the
structural parent map and of the generated ids; in the spec's scenario
the node `("A","B","C")` resolves to `#_123-456` and its emitted
`ParentObject` line references external id `123-456`, not any generated
identifier. -/
theorem C1_virtual_parent_precedence :
    (∀ (parentUid : String) (pum : List (HPath × String))
        (pm pm' : List (HPath × HPath)) (im im' : List (HPath × String))
        (p : HPath) (u : String),
        2 ≤ p.length → getVal? pum p = some u →
        parentResource parentUid pum pm im p = "#_" ++ u ∧
          parentResource parentUid pum pm im p =
            parentResource parentUid pum pm' im' p) ∧
      parentResource "root-uid" (parse rsScenario).parentUidMap
          (buildTree (parse rsScenario).paths
            (allNodesList (parse rsScenario).paths)).parentMap
          (buildIdMap (allNodesList (parse rsScenario).paths)
            (fun i => String.mk (List.replicate i 'x')))
          ["A", "B", "C"] = "#_123-456" ∧
      ("    <me:IdentifiedObject.ParentObject rdf:resource=\"#_#_123-456\" />" ∈
        ((generate (parse rsScenario).paths (parse rsScenario).externalChildren
            "root-uid" (parse rsScenario).cckMap (parse rsScenario).parentUidMap
            [] (fun i => String.mk (List.replicate i 'x'))).getD ([], [])).1) := by
  refine ⟨?_, by decide, by decide⟩
  intro parentUid pum pm pm' im im' p u hlen hget
  have h1 : ¬p.length = 1 := by omega
  unfold parentResource
  rw [if_neg h1, if_neg h1, hget]
  exact ⟨rfl, rfl⟩

/-- Witness for the amended C1 at a concrete depth-2 node whose
structural parent maps differ between the two calls. -/
theorem C1_virtual_parent_precedence_witness :
    parentResource "r" [(["A", "B"], "42")] [] [] ["A", "B"] = "#_" ++ "42" ∧
      parentResource "r" [(["A", "B"], "42")] [] [] ["A", "B"] =
        parentResource "r" [(["A", "B"], "42")] [(["A", "B"], ["A"])]
          [(["A"], "#_zz")] ["A", "B"] :=
  C1_virtual_parent_precedence.1 "r" [(["A", "B"], "42")] [] [(["A", "B"], ["A"])]
    [] [(["A"], "#_zz")] ["A", "B"] "42" (by decide) (by decide)

/-! ## Identifier-map claims. -/

theorem string_append_left_cancel {s a b : String} (h : s ++ a = s ++ b) : a = b := by
  apply String.ext
  have hd := congrArg String.data h
  simp only [String.data_append] at hd
  exact List.append_cancel_left hd

theorem buildIdMap_keys (allN : List HPath) (f : Nat → String) :
    (buildIdMap allN f).map Prod.fst = allN := by
  unfold buildIdMap
  rw [List.map_map,
    show (Prod.fst ∘ fun e : Nat × HPath => (e.2, "#_" ++ f e.1)) = Prod.snd from rfl,
    List.enum_map_snd]

theorem buildIdMap_values (allN : List HPath) (f : Nat → String) :
    (buildIdMap allN f).map Prod.snd =
      (List.range allN.length).map (fun i => "#_" ++ f i) := by
  unfold buildIdMap
  rw [List.map_map,
    show (Prod.snd ∘ fun e : Nat × HPath => (e.2, "#_" ++ f e.1)) =
      ((fun i => "#_" ++ f i) ∘ Prod.fst) from rfl,
    ← List.map_map, List.enum_map_fst]

theorem generate_eq_some {paths : List HPath} {ec : List (HPath × List String)}
    {pu : String} {cck pum : List (HPath × String)} {vc : List HPath}
    {f : Nat → String} {r : List String × List (HPath × String)}
    (h : generate paths ec pu cck pum vc f = some r) :
    r.2 = buildIdMap (allNodesList paths) f := by
  unfold generate at h
  by_cases hp : paths = []
  · rw [if_pos hp] at h
    cases h
  · rw [if_neg hp] at h
    have h' : (match
        emitLoop cck pu pum (buildTree paths (allNodesList paths))
          (buildIdMap (allNodesList paths) f)
          (fuelFor paths (buildTree paths (allNodesList paths)) (allNodesList paths))
          paths [] with
      | none => none
      | some body =>
        some (headerLines ++ body ++ ["</rdf:RDF>"],
          buildIdMap (allNodesList paths) f)) = some r := h
    split at h'
    · cases h'
    · cases h'
      rfl

theorem mem_allNodesList (paths : List HPath) (q : HPath) :
    q ∈ allNodesList paths ↔
      ∃ p ∈ paths, ∃ i, 1 ≤ i ∧ i ≤ p.length ∧ q = p.take i := by
  simp only [allNodesList, List.mem_dedup, List.mem_flatMap, prefixesOf,
    List.mem_map, List.mem_range'_1]
  constructor
  · rintro ⟨p, hp, i, ⟨h1, h2⟩, rfl⟩
    exact ⟨p, hp, i, h1, by omega, rfl⟩
  · rintro ⟨p, hp, i, h1, h2, rfl⟩
    exact ⟨p, hp, i, ⟨h1, by omega⟩, rfl⟩

theorem mem_parse_paths_ne_nil (rs : List RawRecord) (x : HPath)
    (hx : x ∈ (parse rs).paths) : x ≠ [] := by
  obtain ⟨q, hq, j, hj1, hj2, rfl⟩ := mem_parse_paths_shape rs x hx
  have hqne := (collect_allPaths_chain' rs q hq).2
  cases q with
  | nil => exact absurd rfl hqne
  | cons a l =>
    cases j with
    | zero => omega
    | succ n => simp

/-- Keys of the identifier map returned by a successful `generate` call:
exactly the `all_nodes` set. -/
theorem generate_idmap_keys {paths : List HPath} {ec : List (HPath × List String)}
    {pu : String} {cck pum : List (HPath × String)} {vc : List HPath}
    {f : Nat → String} {r : List String × List (HPath × String)}
    (h : generate paths ec pu cck pum vc f = some r) :
    r.2.map Prod.fst = allNodesList paths := by
  rw [generate_eq_some h, buildIdMap_keys]

/-- C4: the identifier map returned by `generate` has exactly one entry
per distinct non-empty prefix (at every depth) of every input path, and
every path in the resolver's materialized output is one of its keys. -/
theorem C4_idmap_completeness :
    (∀ (paths : List HPath) (ec : List (HPath × List String)) (pu : String)
        (cck pum : List (HPath × String)) (vc : List HPath) (f : Nat → String)
        (r : List String × List (HPath × String)),
        generate paths ec pu cck pum vc f = some r →
        (r.2.map Prod.fst).Nodup ∧
          ∀ q : HPath, q ∈ r.2.map Prod.fst ↔
            ∃ p ∈ paths, ∃ i, 1 ≤ i ∧ i ≤ p.length ∧ q = p.take i) ∧
      ∀ (rs : List RawRecord) (pu : String) (f : Nat → String)
        (r : List String × List (HPath × String)),
        generate (parse rs).paths (parse rs).externalChildren pu (parse rs).cckMap
          (parse rs).parentUidMap [] f = some r →
        ∀ p ∈ (parse rs).paths, p ∈ r.2.map Prod.fst := by
  constructor
  · intro paths ec pu cck pum vc f r h
    rw [generate_idmap_keys h]
    constructor
    · exact List.nodup_dedup _
    · intro q
      exact mem_allNodesList paths q
  · intro rs pu f r h p hp
    rw [generate_idmap_keys h, mem_allNodesList]
    have hne := mem_parse_paths_ne_nil rs p hp
    refine ⟨p, hp, p.length, ?_, le_refl _, (List.take_length p).symm⟩
    cases p with
    | nil => exact absurd rfl hne
    | cons a l => simp

/-- Witness for C4: a concrete `generate` call over the parse of a
two-record input; the key list is the three prefixes, and the parse
output paths are among the keys. -/
theorem C4_idmap_completeness_witness :
    ((["A"] : HPath) ∈
      ((generate [["A"], ["A", "B"]] [] "r" [] [] []
          (fun i => String.mk (List.replicate i 'x'))).getD ([], [])).2.map Prod.fst) ∧
      ((["X", "Y"] : HPath) ∈
        ((generate (parse [(["X", "Y"], "", "")]).paths
            (parse [(["X", "Y"], "", "")]).externalChildren "r"
            (parse [(["X", "Y"], "", "")]).cckMap
            (parse [(["X", "Y"], "", "")]).parentUidMap []
            (fun i => String.mk (List.replicate i 'x'))).getD ([], [])).2.map Prod.fst) := by
  constructor
  · rcases hEq : generate [["A"], ["A", "B"]] [] "r" [] [] []
        (fun i => String.mk (List.replicate i 'x')) with _ | r
    · exact absurd hEq (by decide)
    · exact ((C4_idmap_completeness.1 _ _ _ _ _ _ _ r hEq).2 ["A"]).mpr
        ⟨["A"], by decide, 1, by omega, by decide, by decide⟩
  · rcases hEq : generate (parse [(["X", "Y"], "", "")]).paths
        (parse [(["X", "Y"], "", "")]).externalChildren "r"
        (parse [(["X", "Y"], "", "")]).cckMap
        (parse [(["X", "Y"], "", "")]).parentUidMap []
        (fun i => String.mk (List.replicate i 'x')) with _ | r
    · exact absurd hEq (by decide)
    · exact C4_idmap_completeness.2 _ "r" _ r hEq ["X", "Y"] (by decide)

/-- The uuid4 model used in witnesses: `i` copies of `x`, injective. -/
theorem replicate_x_injective :
    Function.Injective (fun i => String.mk (List.replicate i 'x')) := by
  intro a b h
  have := congrArg (fun s => s.data.length) h
  simpa using this

/-- C6: the identifiers in the map returned by one `generate` call are
pairwise distinct, with `uuid4` modelled as an injective fresh-value
supply independent of path content. -/
theorem C6_identifier_uniqueness (paths : List HPath)
    (ec : List (HPath × List String)) (pu : String)
    (cck pum : List (HPath × String)) (vc : List HPath) (idSupply : Nat → String)
    (r : List String × List (HPath × String))
    (hinj : Function.Injective idSupply)
    (h : generate paths ec pu cck pum vc idSupply = some r) :
    (r.2.map Prod.snd).Nodup := by
  rw [generate_eq_some h, buildIdMap_values]
  refine List.Nodup.map ?_ (List.nodup_range _)
  intro a b hab
  exact hinj (string_append_left_cancel hab)

/-- Witness for C6 on a two-path input with the injective replicate
supply. -/
theorem C6_identifier_uniqueness_witness :
    (((generate [["A"], ["A", "B"]] [] "r" [] [] []
        (fun i => String.mk (List.replicate i 'x'))).getD ([], [])).2.map
      Prod.snd).Nodup := by
  rcases hEq : generate [["A"], ["A", "B"]] [] "r" [] [] []
      (fun i => String.mk (List.replicate i 'x')) with _ | r
  · exact absurd hEq (by decide)
  · exact C6_identifier_uniqueness _ _ _ _ _ _ _ r replicate_x_injective hEq

/-! ## Child-reference emission claims. -/

theorem childRefLine_injective {a b : String} (h : childRefLine a = childRefLine b) :
    a = b := by
  unfold childRefLine at h
  have hd := congrArg String.data h
  simp only [String.data_append] at hd
  exact String.ext (List.append_cancel_left (List.append_cancel_right hd))

theorem childBuild_lines_shape (im : List (HPath × String)) :
    ∀ (cs : List HPath) (added : List String),
      ∀ l ∈ (childBuild im cs added).1, ∃ cid, l = childRefLine cid ∧ cid ∉ added := by
  intro cs
  induction cs with
  | nil => intro added l hl; simp [childBuild] at hl
  | cons c cs ih =>
    intro added l hl
    rcases hg : getVal? im c with _ | cid
    · simp only [childBuild, hg] at hl
      exact ih added l hl
    · simp only [childBuild, hg] at hl
      by_cases hmem : cid ∈ added
      · rw [if_pos hmem] at hl
        exact ih added l hl
      · rw [if_neg hmem] at hl
        rcases List.mem_cons.mp hl with rfl | hl'
        · exact ⟨cid, rfl, hmem⟩
        · obtain ⟨cid', hcid', hnot⟩ := ih (added ++ [cid]) l hl'
          exact ⟨cid', hcid', fun hc => hnot (List.mem_append_left _ hc)⟩

theorem childBuild_lines_nodup (im : List (HPath × String)) :
    ∀ (cs : List HPath) (added : List String), ((childBuild im cs added).1).Nodup := by
  intro cs
  induction cs with
  | nil => intro added; simp [childBuild]
  | cons c cs ih =>
    intro added
    rcases hg : getVal? im c with _ | cid
    · simp only [childBuild, hg]
      exact ih added
    · simp only [childBuild, hg]
      by_cases hmem : cid ∈ added
      · rw [if_pos hmem]
        exact ih added
      · rw [if_neg hmem]
        refine List.nodup_cons.mpr ⟨?_, ih (added ++ [cid])⟩
        intro hin
        obtain ⟨cid', hcid', hnot⟩ := childBuild_lines_shape im cs (added ++ [cid]) _ hin
        have : cid = cid' := childRefLine_injective hcid'
        exact hnot (this ▸ List.mem_append_right _ (List.mem_singleton.mpr rfl))

theorem childBuild_complete (im : List (HPath × String)) :
    ∀ (cs : List HPath) (added : List String),
      (∀ c ∈ cs, (getVal? im c).isSome) →
      ((cs.map (fun c => getVal? im c)).Nodup) →
      (∀ c ∈ cs, ∀ v, getVal? im c = some v → v ∉ added) →
      childBuild im cs added =
        (cs.map (fun c => childRefLine ((getVal? im c).getD "")), cs) := by
  intro cs
  induction cs with
  | nil => intro added _ _ _; rfl
  | cons c cs ih =>
    intro added h1 h2 h3
    obtain ⟨cid, hcid⟩ := Option.isSome_iff_exists.mp (h1 c (List.mem_cons_self c cs))
    have hnm : cid ∉ added := h3 c (List.mem_cons_self c cs) cid hcid
    simp only [childBuild, hcid]
    rw [if_neg hnm]
    rw [List.map_cons, List.nodup_cons] at h2
    have hrec := ih (added ++ [cid])
      (fun c' hc' => h1 c' (List.mem_cons_of_mem c hc'))
      h2.2
      (fun c' hc' v hv => by
        intro hvmem
        rcases List.mem_append.mp hvmem with hva | hvc
        · exact h3 c' (List.mem_cons_of_mem c hc') v hv hva
        · rw [List.mem_singleton.mp hvc] at hv
          exact h2.1 (hcid ▸ hv ▸ List.mem_map_of_mem (fun x => getVal? im x) hc'))
    rw [hrec]
    simp [hcid]

/-- C7: the emitted child references of a container are exactly one
reference per structural child (when every child has a generated id and
the ids are distinct), each child id referenced at most once; and
`external_children` is never consumed by emission — `generate` is
independent of it (and of the likewise-unused `virtual_containers`). -/
theorem C7_child_references :
    (∀ (paths : List HPath) (ec ec' : List (HPath × List String)) (pu : String)
        (cck pum : List (HPath × String)) (vc vc' : List HPath)
        (f : Nat → String),
        generate paths ec pu cck pum vc f = generate paths ec' pu cck pum vc' f) ∧
      (∀ (im : List (HPath × String)) (cs : List HPath) (added : List String),
        ((childBuild im cs added).1).Nodup) ∧
      ∀ (im : List (HPath × String)) (cs : List HPath),
        (∀ c ∈ cs, (getVal? im c).isSome) →
        (cs.map (fun c => getVal? im c)).Nodup →
        (childBuild im cs []).1 =
          cs.map (fun c => childRefLine ((getVal? im c).getD "")) := by
  refine ⟨fun _ _ _ _ _ _ _ _ _ => rfl, childBuild_lines_nodup, ?_⟩
  intro im cs h1 h2
  rw [childBuild_complete im cs [] h1 h2 (fun _ _ _ _ h => List.not_mem_nil _ h)]

/-- Witness for C7: differing `external_children` and
`virtual_containers` do not change the generated document, and a
two-child container emits exactly its two reference lines. -/
theorem C7_child_references_witness :
    generate [["A"]] [(["A"], ["e1"])] "r" [] [] [["V"]]
        (fun i => String.mk (List.replicate i 'x')) =
      generate [["A"]] [] "r" [] [] []
        (fun i => String.mk (List.replicate i 'x')) ∧
      ((childBuild [(["A"], "#_1"), (["B"], "#_2")] [["A"], ["B"]] []).1).Nodup ∧
      (childBuild [(["A"], "#_1"), (["B"], "#_2")] [["A"], ["B"]] []).1 =
        [childRefLine "#_1", childRefLine "#_2"] := by
  refine ⟨C7_child_references.1 [["A"]] [(["A"], ["e1"])] [] "r" [] [] [["V"]] []
      (fun i => String.mk (List.replicate i 'x')),
    C7_child_references.2.1 [(["A"], "#_1"), (["B"], "#_2")] [["A"], ["B"]] [], ?_⟩
  rw [C7_child_references.2.2 [(["A"], "#_1"), (["B"], "#_2")] [["A"], ["B"]]
    (by decide) (by decide)]
  decide

/-! ## Error semantics of `generate` (C5). -/

theorem getVal?_isSome_iff_mem_keys {α : Type} (m : List (HPath × α)) (k : HPath) :
    (getVal? m k).isSome ↔ k ∈ m.map Prod.fst := by
  constructor
  · intro h
    unfold getVal? at h
    rcases hf : List.find? (fun e => decide (e.1 = k)) m with _ | e
    · rw [hf] at h
      simp at h
    · have he := List.find?_some hf
      have hmem := List.mem_of_find?_eq_some hf
      simp only [decide_eq_true_eq] at he
      exact he ▸ List.mem_map_of_mem Prod.fst hmem
  · intro hk
    obtain ⟨e, he, hek⟩ := List.mem_map.mp hk
    have hs : (List.find? (fun e => decide (e.1 = k)) m).isSome :=
      List.find?_isSome.mpr ⟨e, he, by simp [hek]⟩
    obtain ⟨e', he'⟩ := Option.isSome_iff_exists.mp hs
    simp [getVal?, he']

theorem childBuild_snd_length (im : List (HPath × String)) :
    ∀ (cs : List HPath) (added : List String),
      (childBuild im cs added).2.length ≤ cs.length := by
  intro cs
  induction cs with
  | nil => intro added; simp [childBuild]
  | cons c cs ih =>
    intro added
    rcases hg : getVal? im c with _ | cid
    · simp only [childBuild, hg]
      exact le_trans (ih added) (by simp)
    · simp only [childBuild, hg]
      by_cases hmem : cid ∈ added
      · rw [if_pos hmem]
        exact le_trans (ih added) (by simp)
      · rw [if_neg hmem]
        simpa using ih (added ++ [cid])

theorem childBuild_snd_isSome (im : List (HPath × String)) :
    ∀ (cs : List HPath) (added : List String) (c : HPath),
      c ∈ (childBuild im cs added).2 → (getVal? im c).isSome := by
  intro cs
  induction cs with
  | nil => intro added c hc; simp [childBuild] at hc
  | cons c0 cs ih =>
    intro added c hc
    rcases hg : getVal? im c0 with _ | cid
    · simp only [childBuild, hg] at hc
      exact ih added c hc
    · simp only [childBuild, hg] at hc
      by_cases hmem : cid ∈ added
      · rw [if_pos hmem] at hc
        exact ih added c hc
      · rw [if_neg hmem] at hc
        rcases List.mem_cons.mp hc with rfl | hc'
        · rw [hg]; rfl
        · exact ih (added ++ [cid]) c hc'

theorem nodeBlock_snd (cckMap : List (HPath × String)) (parentUid : String)
    (pum : List (HPath × String)) (tm : TreeMaps) (im : List (HPath × String))
    (current : HPath) (currentId : String) :
    (nodeBlock cckMap parentUid pum tm im current currentId).2 =
      (if elementType tm.childrenMap current = "cim:AssetContainer" then
        childBuild im (childrenOf tm.childrenMap current) []
      else ([], [])).2 := rfl

theorem nodeBlock_snd_length (cckMap : List (HPath × String)) (parentUid : String)
    (pum : List (HPath × String)) (tm : TreeMaps) (im : List (HPath × String))
    (current : HPath) (currentId : String) :
    (nodeBlock cckMap parentUid pum tm im current currentId).2.length ≤
      (childrenOf tm.childrenMap current).length := by
  rw [nodeBlock_snd]
  by_cases het : elementType tm.childrenMap current = "cim:AssetContainer"
  · rw [if_pos het]
    exact childBuild_snd_length im _ []
  · rw [if_neg het]
    simp

theorem nodeBlock_snd_isSome (cckMap : List (HPath × String)) (parentUid : String)
    (pum : List (HPath × String)) (tm : TreeMaps) (im : List (HPath × String))
    (current : HPath) (currentId : String) (c : HPath)
    (hc : c ∈ (nodeBlock cckMap parentUid pum tm im current currentId).2) :
    (getVal? im c).isSome := by
  rw [nodeBlock_snd] at hc
  by_cases het : elementType tm.childrenMap current = "cim:AssetContainer"
  · rw [if_pos het] at hc
    exact childBuild_snd_isSome im _ [] c hc
  · rw [if_neg het] at hc
    simp at hc

theorem filter_sum_step (f : HPath → Nat) :
    ∀ (keys processed : List HPath) (c : HPath), keys.Nodup → c ∈ keys →
      c ∉ processed →
      ((keys.filter (fun n => decide (n ∉ processed))).map f).sum =
        f c + ((keys.filter (fun n => decide (n ∉ processed ++ [c]))).map f).sum := by
  intro keys
  induction keys with
  | nil => intro processed c _ hc _; exact absurd hc (List.not_mem_nil c)
  | cons a l ih =>
    intro processed c hnd hc hcp
    rw [List.nodup_cons] at hnd
    rcases List.mem_cons.mp hc with rfl | hcl
    · have hfl : l.filter (fun n => decide (n ∉ processed ++ [c])) =
          l.filter (fun n => decide (n ∉ processed)) := by
        apply List.filter_congr
        intro x hx
        have hxc : x ≠ c := fun h => hnd.1 (h ▸ hx)
        simp [List.mem_append, hxc]
      have h1 : (decide (c ∉ processed)) = true := by simpa using hcp
      have h2 : (decide (c ∉ processed ++ [c])) = false := by simp
      simp only [List.filter_cons, h1, h2, if_true, if_false, Bool.false_eq_true,
        List.map_cons, List.sum_cons, hfl]
    · have hac : a ≠ c := fun h => hnd.1 (h ▸ hcl)
      have heq : (decide (a ∉ processed ++ [c])) = (decide (a ∉ processed)) := by
        simp [List.mem_append, hac]
      simp only [List.filter_cons, heq]
      by_cases hap : a ∉ processed
      · have h1 : decide (a ∉ processed) = true := by simpa using hap
        rw [h1]
        simp only [if_true, List.map_cons, List.sum_cons]
        rw [ih processed c hnd.2 hcl hcp]
        omega
      · have h1 : decide (a ∉ processed) = false := by
          simp only [decide_eq_false_iff_not]
          exact fun hn => hap hn
        rw [h1]
        simp only [Bool.false_eq_true, if_false]
        exact ih processed c hnd.2 hcl hcp

theorem emitLoop_isSome (cck : List (HPath × String)) (pu : String)
    (pum : List (HPath × String)) (tm : TreeMaps) (im : List (HPath × String))
    (hknd : (im.map Prod.fst).Nodup) :
    ∀ (fuel : Nat) (q processed : List HPath),
      (∀ n ∈ q, (getVal? im n).isSome) →
      q.length + unprocessedSum tm.childrenMap (im.map Prod.fst) processed ≤ fuel →
      (emitLoop cck pu pum tm im fuel q processed).isSome := by
  intro fuel
  induction fuel with
  | zero =>
    intro q processed hq hle
    cases q with
    | nil => simp [emitLoop]
    | cons a as => simp [List.length_cons] at hle
  | succ fuel ih =>
    intro q processed hq hle
    cases q with
    | nil => simp [emitLoop]
    | cons current rest =>
      by_cases hp : current ∈ processed
      · have : (emitLoop cck pu pum tm im fuel rest processed).isSome := by
          apply ih rest processed (fun n hn => hq n (List.mem_cons_of_mem _ hn))
          simp only [List.length_cons] at hle
          omega
        simpa [emitLoop, hp] using this
      · obtain ⟨cid, hcid⟩ :=
          Option.isSome_iff_exists.mp (hq current (List.mem_cons_self _ _))
        have hck : current ∈ im.map Prod.fst :=
          (getVal?_isSome_iff_mem_keys im current).mp (by rw [hcid]; rfl)
        have hrec : (emitLoop cck pu pum tm im fuel
            (rest ++ (nodeBlock cck pu pum tm im current cid).2)
            (processed ++ [current])).isSome := by
          apply ih
          · intro n hn
            rcases List.mem_append.mp hn with h | h
            · exact hq n (List.mem_cons_of_mem _ h)
            · exact nodeBlock_snd_isSome cck pu pum tm im current cid n h
          · have hstep := filter_sum_step (fun n => (childrenOf tm.childrenMap n).length)
              (im.map Prod.fst) processed current hknd hck hp
            have hblen := nodeBlock_snd_length cck pu pum tm im current cid
            dsimp only at hstep
            simp only [List.length_cons] at hle
            simp only [List.length_append]
            unfold unprocessedSum at hle ⊢
            omega
        obtain ⟨out, hout⟩ := Option.isSome_iff_exists.mp hrec
        simp only [emitLoop, if_neg hp, hcid, hout]
        rfl

theorem generate_isSome (paths : List HPath) (ec : List (HPath × List String))
    (pu : String) (cck pum : List (HPath × String)) (vc : List HPath)
    (f : Nat → String) (hne : paths ≠ []) (hnn : ∀ p ∈ paths, p ≠ []) :
    (generate paths ec pu cck pum vc f).isSome := by
  unfold generate
  rw [if_neg hne]
  have hkeys : (buildIdMap (allNodesList paths) f).map Prod.fst = allNodesList paths :=
    buildIdMap_keys _ _
  have hknd : ((buildIdMap (allNodesList paths) f).map Prod.fst).Nodup := by
    rw [hkeys]
    exact List.nodup_dedup _
  have hq : ∀ p ∈ paths, (getVal? (buildIdMap (allNodesList paths) f) p).isSome := by
    intro p hp
    rw [getVal?_isSome_iff_mem_keys, hkeys, mem_allNodesList]
    have hpn := hnn p hp
    refine ⟨p, hp, p.length, ?_, le_refl _, (List.take_length p).symm⟩
    cases p with
    | nil => exact absurd rfl hpn
    | cons a l => simp
  have hfuel : paths.length +
      unprocessedSum (buildTree paths (allNodesList paths)).childrenMap
        ((buildIdMap (allNodesList paths) f).map Prod.fst) [] ≤
      fuelFor paths (buildTree paths (allNodesList paths)) (allNodesList paths) := by
    rw [hkeys]
    unfold unprocessedSum fuelFor
    have hfl : (allNodesList paths).filter (fun n => decide (n ∉ ([] : List HPath))) =
        allNodesList paths :=
      List.filter_eq_self.mpr (fun a _ => by simp)
    rw [hfl]
  have hsome := emitLoop_isSome cck pu pum (buildTree paths (allNodesList paths))
    (buildIdMap (allNodesList paths) f) hknd
    (fuelFor paths (buildTree paths (allNodesList paths)) (allNodesList paths))
    paths [] hq hfuel
  obtain ⟨body, hbody⟩ := Option.isSome_iff_exists.mp hsome
  simp only [hbody]
  rfl

/-- C5: `generate` fails exactly when its `paths` argument is empty
(over the data model's paths, which are non-empty segment sequences),
returning no document in that case; `parse` of the empty record list
yields the empty materialized sequence and empty maps, and the
subsequent `generate` on that output fails rather than emitting an
empty document. -/
theorem C5_empty_input_failure :
    (∀ (paths : List HPath) (ec : List (HPath × List String)) (pu : String)
        (cck pum : List (HPath × String)) (vc : List HPath) (f : Nat → String),
        (∀ p ∈ paths, p ≠ []) →
        (generate paths ec pu cck pum vc f = none ↔ paths = [])) ∧
      parse [] = ⟨[], [], [], [], []⟩ ∧
      ∀ (ec : List (HPath × List String)) (pu : String)
        (cck pum : List (HPath × String)) (vc : List HPath) (f : Nat → String),
        generate (parse []).paths ec pu cck pum vc f = none := by
  refine ⟨?_, rfl, fun _ _ _ _ _ _ => rfl⟩
  intro paths ec pu cck pum vc f hnn
  constructor
  · intro hnone
    by_contra hne
    have hs := generate_isSome paths ec pu cck pum vc f hne hnn
    rw [hnone] at hs
    simp at hs
  · intro h
    subst h
    rfl

/-- Witness for C5: a one-path call does not fail; the empty-parse call
fails. -/
theorem C5_empty_input_failure_witness :
    (generate [["A"]] [] "r" [] [] [] (fun i => String.mk (List.replicate i 'x')) =
        none ↔ ([["A"]] : List HPath) = []) ∧
      generate (parse []).paths [] "r" [] [] []
          (fun i => String.mk (List.replicate i 'x')) = none :=
  ⟨C5_empty_input_failure.1 [["A"]] [] "r" [] [] [] _ (by decide),
    C5_empty_input_failure.2.2 [] "r" [] [] [] _⟩
